import Mathlib

/-!
Verification of the coursework C programs against their specification.

The definitions below are shallow embeddings of the C functions in
`src/tasks-02/task-01/main.c` (Armstrong numbers),
`src/tasks-02/task-06/main.c` (Caesar cipher) and
`src/tasks-04/task-3-4-5-7-8/main.c` (matrix and array operations).
Machine integers (`long long`, `int`) are modelled as `Nat`/`Int`; the
reachable value ranges of the programs stay far below the overflow
boundaries, so no wrap-around modelling is required.  `double` values are
modelled as `ℚ`: the array/matrix claims concern comparisons, copies and
exact sums, for which rational arithmetic agrees with the C code's control
flow.
-/

/-! ## Armstrong program, src/tasks-02/task-01/main.c -/

/-- Loop of `ipow` (exponentiation by squaring): `result = 1; while (exp > 0)
\x7b if (exp % 2 == 1) result *= base; exp >>= 1; base *= base; \x7d`. -/
def ipowAux (base e result : ℕ) : ℕ :=
  if e = 0 then result
  else ipowAux (base * base) (e / 2) (if e % 2 = 1 then result * base else result)
termination_by e
decreasing_by exact Nat.div_lt_self (Nat.pos_of_ne_zero (by assumption)) (by omega)

/-- `ipow` from the C source. -/
def ipow (base e : ℕ) : ℕ := ipowAux base e 1

/-- `count_digits` from the C source: `if (num == 0) return 1; return
(int)floor(log10(llabs(num))) + 1;`.  The floating-point `log10` is modelled
by the exact value `Nat.log 10`. -/
def count_digits (num : ℕ) : ℕ := if num = 0 then 1 else Nat.log 10 num + 1

/-- The digit-summing loop of `is_armstrong_number_optimized`: repeatedly adds
`ipow(num % 10, digits)` to `sum`, breaking early as soon as the running sum
exceeds `original`; returns the final value of `sum`. -/
def armLoop (digits original num sum : ℕ) : ℕ :=
  if num = 0 then sum
  else
    let s := sum + ipow (num % 10) digits
    if original < s then s
    else armLoop digits original (num / 10) s
termination_by num
decreasing_by exact Nat.div_lt_self (Nat.pos_of_ne_zero (by assumption)) (by omega)

/-- `is_armstrong_number_optimized` from the C source. -/
def is_armstrong_number_optimized (num : ℕ) : Bool :=
  if num < 10 then true
  else armLoop (count_digits num) num num 0 == num

/-- The pre-computed table `digit_powers[i] = ipow(i, digits)` of
`is_armstrong_number_math`. -/
def digit_powers (digits : ℕ) : List ℕ := (List.range 10).map (fun i => ipow i digits)

/-- The digit-summing loop of `is_armstrong_number_math`: identical to
`armLoop` except that each power is looked up in the `digit_powers` table. -/
def armLoopMath (digits original num sum : ℕ) : ℕ :=
  if num = 0 then sum
  else
    let s := sum + (digit_powers digits).getD (num % 10) 0
    if original < s then s
    else armLoopMath digits original (num / 10) s
termination_by num
decreasing_by exact Nat.div_lt_self (Nat.pos_of_ne_zero (by assumption)) (by omega)

/-- `is_armstrong_number_math` from the C source. -/
def is_armstrong_number_math (num : ℕ) : Bool :=
  if num < 10 then true
  else armLoopMath (count_digits num) num num 0 == num

/-- The defining property of an Armstrong number, as stated by the spec:
the number equals the sum of its decimal digits each raised to the power of
the number of its decimal digits. -/
def armstrong_property (n : ℕ) : Prop :=
  n = ((Nat.digits 10 n).map (fun d => d ^ (Nat.digits 10 n).length)).sum

instance (n : ℕ) : Decidable (armstrong_property n) := by
  unfold armstrong_property; infer_instance

/-- Start of thread `i`'s chunk in `find_armstrong_numbers_threaded`:
`thread_data[i].start = i * chunk_size + 1` with `chunk_size = limit / thread_count`. -/
def chunk_start (limit T i : ℕ) : ℕ := i * (limit / T) + 1

/-- End of thread `i`'s chunk: the last thread runs to `limit`, the others to
`(i + 1) * chunk_size`. -/
def chunk_end (limit T i : ℕ) : ℕ :=
  if i = T - 1 then limit else (i + 1) * (limit / T)

/-- The inclusive index range `[start, end]` scanned by thread `i` (empty when
`end < start`). -/
def chunk_range (limit T i : ℕ) : List ℕ :=
  List.range' (chunk_start limit T i) (chunk_end limit T i + 1 - chunk_start limit T i)

/-- The values accepted by thread `i`: its chunk filtered by the Armstrong
test `f` in index order. -/
def thread_results (f : ℕ → Bool) (limit T i : ℕ) : List ℕ :=
  (chunk_range limit T i).filter f

/-- The merged contents of the shared result buffer after all threads have
flushed: one per-chunk result list per thread.  (The flush order of the real
threads is scheduler-dependent; any order is a permutation of this list, so
set-valued statements are unaffected.) -/
def threaded_results (f : ℕ → Bool) (limit T : ℕ) : List ℕ :=
  ((List.range T).map (thread_results f limit T)).flatten

/-- The sequential search of `print_armstrong_numbers`: scan `1..limit` and
keep the accepted values in order. -/
def sequential_results (f : ℕ → Bool) (limit : ℕ) : List ℕ :=
  (List.range' 1 limit).filter f

/-- One bounded bubble pass from `find_armstrong_numbers_threaded`'s sort:
perform `k` compare-exchange steps on adjacent positions starting at the
head (`if (results[j] > results[j+1]) swap`). -/
def bpass : List ℕ → ℕ → List ℕ
  | l, 0 => l
  | [], _ + 1 => []
  | [a], _ + 1 => [a]
  | a :: b :: t, k + 1 => if b < a then b :: bpass (a :: t) k else a :: bpass (b :: t) k

/-- The outer loop of the bubble sort: passes with bounds `k, k-1, ..., 1`. -/
def bubble_passes : List ℕ → ℕ → List ℕ
  | l, 0 => l
  | l, k + 1 => bubble_passes (bpass l (k + 1)) k

/-- The bubble sort applied to the result buffer before printing
(`count - 1` passes, pass `i` doing `count - i - 1` compare-exchanges). -/
def bubble_sort (l : List ℕ) : List ℕ := bubble_passes l (l.length - 1)

/-! ## Matrix program, src/tasks-04/task-3-4-5-7-8/main.c -/

/-- The `Matrix` struct: row and column counts plus the flat row-major
`data` array, modelled as a total function from flat indices to values. -/
structure CMatrix where
  rows : ℕ
  cols : ℕ
  data : ℕ → ℚ

/-- A single store `data[k] = v` into a flat array. -/
def writeCell (d : ℕ → ℚ) (k : ℕ) (v : ℚ) : ℕ → ℚ :=
  fun n => if n = k then v else d n

/-- A sequence of stores into a flat array, performed left to right. -/
def writeSeq (d : ℕ → ℚ) (ps : List (ℕ × ℚ)) : ℕ → ℚ :=
  ps.foldl (fun acc p => writeCell acc p.1 p.2) d

/-- `matrix_transpose` from the C source: for each `i < mat->rows`,
`j < mat->cols` (row-major loop order) store
`result->data[j * result->cols + i] = mat->data[i * mat->cols + j]`. -/
def matrix_transpose (mat result : CMatrix) : CMatrix :=
  CMatrix.mk result.rows result.cols
    (writeSeq result.data
      ((List.range mat.rows ×ˢ List.range mat.cols).map
        (fun p => (p.2 * result.cols + p.1, mat.data (p.1 * mat.cols + p.2)))))

/-- `matrix_multiply` from the C source: for each `i < a->rows`,
`j < b->cols`, accumulate `sum += a->data[i*a->cols+k] * b->data[k*b->cols+j]`
over `k < a->cols` and store it at `result->data[i * result->cols + j]`. -/
def matrix_multiply (a b result : CMatrix) : CMatrix :=
  CMatrix.mk result.rows result.cols
    (writeSeq result.data
      ((List.range a.rows ×ˢ List.range b.cols).map
        (fun p => (p.1 * result.cols + p.2,
          (List.range a.cols).foldl
            (fun sum k => sum + a.data (p.1 * a.cols + k) * b.data (k * b.cols + p.2)) 0))))

/-- The `OP_MATRIX_TRANSPOSE` case of `main`: the caller sets
`result.rows = mat.cols`, `result.cols = mat.rows` and then calls
`matrix_transpose` (the uninitialised stack contents of `result.data` are
modelled as zeros; every in-range cell is overwritten). -/
def run_transpose (mat : CMatrix) : CMatrix :=
  matrix_transpose mat (CMatrix.mk mat.cols mat.rows (fun _ => 0))

/-- The `OP_MATRIX_MULTIPLY` case of `main`: the caller sets
`result.rows = a.rows`, `result.cols = b.cols` and then calls
`matrix_multiply`. -/
def run_multiply (a b : CMatrix) : CMatrix :=
  matrix_multiply a b (CMatrix.mk a.rows b.cols (fun _ => 0))

/-- The value of cell `(i, j)` of a matrix, read the way the C program reads
it: `data[i * cols + j]`. -/
def cell (m : CMatrix) (i j : ℕ) : ℚ := m.data (i * m.cols + j)

/-- Observational equality of matrices: equal dimensions and equal in-range
cells (out-of-range slots of the flat array are never read by the program). -/
def MatEq (a b : CMatrix) : Prop :=
  a.rows = b.rows ∧ a.cols = b.cols ∧
    ∀ i < a.rows, ∀ j < a.cols, cell a i j = cell b i j

instance (a b : CMatrix) : Decidable (MatEq a b) := by
  unfold MatEq; infer_instance

/-- The 2-by-2 identity matrix of the spec's concrete scenario, stored
row-major. -/
def identity2 : CMatrix := CMatrix.mk 2 2 (fun idx => if idx = 0 ∨ idx = 3 then 1 else 0)

/-- The loop state of `swap_min_max`: current minimum and maximum values and
the indices where they were found. -/
structure MMState where
  min_val : ℚ
  min_idx : ℕ
  max_val : ℚ
  max_idx : ℕ

/-- One iteration of the `swap_min_max` scan at index `i`:
`if (array[i] < min) update min; if (array[i] > max) update max`. -/
def mm_step (arr : List ℚ) (st : MMState) (i : ℕ) : MMState :=
  let v := arr.getD i 0
  let st1 := if v < st.min_val then MMState.mk v i st.max_val st.max_idx else st
  if st1.max_val < v then MMState.mk st1.min_val st1.min_idx v i else st1

/-- The full scan of `swap_min_max`: indices `1 .. size-1`, starting from
`min = max = array[0]` at index `0`.  (This is the sequential semantics; the
OpenMP version partitions the loop but merges with the same strict
comparisons.) -/
def mm_scan (arr : List ℚ) : MMState :=
  (List.range' 1 (arr.length - 1)).foldl (mm_step arr) (MMState.mk (arr.getD 0 0) 0 (arr.getD 0 0) 0)

/-- `swap_min_max` from the C source: find the minimum and maximum, then
`temp = array[min_idx]; array[min_idx] = array[max_idx]; array[max_idx] = temp`. -/
def swap_min_max (arr : List ℚ) : List ℚ :=
  if arr.length < 1 then arr
  else
    let st := mm_scan arr
    let tmin := arr.getD st.min_idx 0
    let tmax := arr.getD st.max_idx 0
    (arr.set st.min_idx tmax).set st.max_idx tmin

/-- One worker of the OpenMP `swap_min_max` reduction: it copies the shared
state as of entering the parallel region (before any flush) into its locals
and runs the per-iteration strict-comparison updates (`mm_step`) over the
block of loop indices the `omp for` schedule assigned to it. -/
def omp_local_scan (arr : List ℚ) (init : MMState) (idxs : List ℕ) : MMState :=
  idxs.foldl (mm_step arr) init

/-- The critical section of `swap_min_max`: `if (local_min < min_val)
\x7b min_val = local_min; min_idx = local_min_idx; \x7d` and the symmetric
strict comparison for the maximum. -/
def omp_merge (shared loc : MMState) : MMState :=
  let s1 := if loc.min_val < shared.min_val then
    MMState.mk loc.min_val loc.min_idx shared.max_val shared.max_idx else shared
  if s1.max_val < loc.max_val then
    MMState.mk s1.min_val s1.min_idx loc.max_val loc.max_idx else s1

/-- `swap_min_max` under its multithreaded execution: `chunks` lists each
worker's block of loop indices in the order the workers reach the critical
section (that order is scheduler-dependent and is the source of the
nondeterminism); the per-worker results are flushed into the shared state in
that order, and the final indices are swapped as in the sequential code. -/
def swap_min_max_threaded (arr : List ℚ) (chunks : List (List ℕ)) : List ℚ :=
  if arr.length < 1 then arr
  else
    let init := MMState.mk (arr.getD 0 0) 0 (arr.getD 0 0) 0
    let st := (chunks.map (omp_local_scan arr init)).foldl omp_merge init
    let tmin := arr.getD st.min_idx 0
    let tmax := arr.getD st.max_idx 0
    (arr.set st.min_idx tmax).set st.max_idx tmin

/-- `merge_sorted_arrays` from the C source: take from `a` while
`a[i] < b[j]`, otherwise from `b`, then drain the leftovers. -/
def merge_sorted_arrays : List ℚ → List ℚ → List ℚ
  | [], ys => ys
  | x :: xs, [] => x :: xs
  | x :: xs, y :: ys =>
    if x < y then x :: merge_sorted_arrays xs (y :: ys)
    else y :: merge_sorted_arrays (x :: xs) ys
termination_by a b => a.length + b.length

/-! ## Text converter, src/tasks-02/task-06/main.c -/

/-- ASCII `isdigit` (characters are modelled as their ASCII codes). -/
def c_isdigit (c : ℕ) : Bool := 48 ≤ c && c ≤ 57

/-- ASCII `isupper`. -/
def c_isupper (c : ℕ) : Bool := 65 ≤ c && c ≤ 90

/-- ASCII `islower`. -/
def c_islower (c : ℕ) : Bool := 97 ≤ c && c ≤ 122

/-- ASCII `isalpha`. -/
def c_isalpha (c : ℕ) : Bool := c_isupper c || c_islower c

/-- The per-character transform of `caesar_cipher`:
`base = isupper ? 'A' : 'a'; c = (c - base + shift + 26) % 26 + base` for
alphabetic characters, identity otherwise.  `Int.tmod` is C's truncated `%`. -/
def caesar_shift_char (shift : ℤ) (c : ℕ) : ℕ :=
  if c_isalpha c then
    let base : ℤ := if c_isupper c then 65 else 97
    ((((c : ℤ) - base + shift + 26).tmod 26) + base).toNat
  else c

/-- `caesar_cipher` from the C source: in decode mode the shift is negated,
then every character is transformed in place. -/
def caesar_cipher (str : List ℕ) (shift : ℤ) (decode : Bool) : List ℕ :=
  str.map (caesar_shift_char (if decode then -shift else shift))

/-! ## Matrix file reader, src/tasks-04/task-3-4-5-7-8/main.c

A file is modelled as the list of lines `fgets` returns: each line is the
list of ASCII codes of its characters, including the trailing newline
(`strlen(line)` is the length of that list). -/

/-- A character that continues a numeric token in the first pass of
`read_matrix_from_file`: `isdigit(*ptr) || *ptr == '-' || *ptr == '.'`. -/
def c_istokchar (c : ℕ) : Bool := c_isdigit c || c = 45 || c = 46

mutual

/-- Inner scan of `count_tokens` (mutual with `count_tokens`): consume the
remainder of the current numeric run, then skip one character (`ptr++`) and
resume the outer scan. -/
def count_tokens_rest : List ℕ → ℕ
  | [] => 0
  | c :: rest => if c_istokchar c then count_tokens_rest rest else count_tokens rest

/-- The token counter of `read_matrix_from_file`'s first pass: counts the
maximal runs of digit/`-`/`.` characters in one line. -/
def count_tokens : List ℕ → ℕ
  | [] => 0
  | c :: rest => if c_istokchar c then 1 + count_tokens_rest rest else count_tokens rest

end

/-- The first pass of `read_matrix_from_file`, fused over the lines: skip
lines with `strlen < 2`; on the first line while `cols == 0` adopt its token
count as `cols`; afterwards fail on any differing token count; count every
processed line in `rows`. -/
def first_pass : List (List ℕ) → ℕ → ℕ → Option (ℕ × ℕ)
  | [], rows, cols => some (rows, cols)
  | line :: rest, rows, cols =>
    if line.length < 2 then first_pass rest rows cols
    else
      let cc := count_tokens line
      if cols = 0 then first_pass rest (rows + 1) cc
      else if cc ≠ cols then none
      else first_pass rest (rows + 1) cols

/-- A `strtok` delimiter from the second pass: space, tab or newline. -/
def c_isdelim (c : ℕ) : Bool := c = 32 || c = 9 || c = 10

/-- Accumulating scan implementing `strtok(line, " \t\n")`: split the line
into its maximal runs of non-delimiter characters.  `cur` is the (reversed)
token being built. -/
def strtok_aux : List ℕ → List ℕ → List (List ℕ)
  | [], cur => if cur = [] then [] else [cur.reverse]
  | c :: rest, cur =>
    if c_isdelim c then
      if cur = [] then strtok_aux rest [] else cur.reverse :: strtok_aux rest []
    else strtok_aux rest (c :: cur)

/-- The tokens `strtok` produces for one line. -/
def strtok_tokens (line : List ℕ) : List (List ℕ) := strtok_aux line []

/-- Value of a string of ASCII digits, most significant first. -/
def digits_val (l : List ℕ) : ℕ := l.foldl (fun acc c => acc * 10 + (c - 48)) 0

/-- Modelled from the spec: `sscanf(token, "%lf", ...)` is C-library code not
in this repository; the spec's file format is "whitespace- or
newline-delimited ASCII decimal numbers", so the model accepts an optional
sign followed by decimal digits with an optional fractional part, requiring
at least one digit, and — like `sscanf` — ignores any trailing characters. -/
def parse_double (tok : List ℕ) : Option ℚ :=
  let signed := match tok with
    | 45 :: r => ((-1 : ℚ), r)
    | 43 :: r => ((1 : ℚ), r)
    | r => ((1 : ℚ), r)
  let intDigits := signed.2.takeWhile c_isdigit
  let rest2 := signed.2.dropWhile c_isdigit
  let fracDigits := match rest2 with
    | 46 :: r => r.takeWhile c_isdigit
    | _ => []
  if intDigits = [] ∧ fracDigits = [] then none
  else some (signed.1 * ((digits_val intDigits : ℚ) +
    (digits_val fracDigits : ℚ) / (10 : ℚ) ^ fracDigits.length))

/-- The second pass of `read_matrix_from_file`, applied to the flattened
token stream of the non-empty lines: before each token check the capacity
`index >= MAX_DIM * MAX_DIM`, then parse it; any failure aborts the load. -/
def second_pass : List (List ℕ) → ℕ → Option (List ℚ)
  | [], _ => some []
  | tok :: rest, index =>
    if 100 * 100 ≤ index then none
    else
      match parse_double tok with
      | none => none
      | some v =>
        match second_pass rest (index + 1) with
        | none => none
        | some vs => some (v :: vs)

/-- The token stream the second pass walks: every non-empty line's `strtok`
tokens, in order. -/
def all_tokens (lines : List (List ℕ)) : List (List ℕ) :=
  ((lines.filter (fun l => decide (2 ≤ l.length))).map strtok_tokens).flatten

/-- `read_matrix_from_file` from the C source: first pass to determine and
check the dimensions, rejection of dimensions above `MAX_DIM = 100`, then the
second pass reading the data row-major. -/
def read_matrix_from_file (lines : List (List ℕ)) : Option CMatrix :=
  match first_pass lines 0 0 with
  | none => none
  | some (r, c) =>
    if 100 < r ∨ 100 < c then none
    else
      match second_pass (all_tokens lines) 0 with
      | none => none
      | some vals => some (CMatrix.mk r c (fun idx => vals.getD idx 0))

/-- The non-empty lines of a file, by the reader's criterion `strlen >= 2`. -/
def nonempty_lines (lines : List (List ℕ)) : List (List ℕ) :=
  lines.filter (fun l => decide (2 ≤ l.length))

/-- The token counts of the non-empty lines. -/
def token_counts (lines : List (List ℕ)) : List ℕ :=
  (nonempty_lines lines).map count_tokens

/-- The first nonzero entry of a list of counts (0 if none): the column
count the first pass converges to. -/
def first_nonzero : List ℕ → ℕ
  | [] => 0
  | c :: r => if c = 0 then first_nonzero r else c

/-- Consistency of a list of token counts as enforced by the first pass:
leading zero counts are absorbed into the still-unset `cols = 0`; from the
first nonzero count on, every count must equal it. -/
def counts_consistent : List ℕ → Bool
  | [] => true
  | c :: r => if c = 0 then counts_consistent r else r.all (fun x => x == c)

/-! ## Theorems -/

/-! ### Armstrong numbers (C6, C9) -/

theorem ipowAux_eq (e : ℕ) : ∀ b r, ipowAux b e r = r * b ^ e := by
  induction e using Nat.strong_induction_on with
  | _ e ih =>
    intro b r
    rw [ipowAux]
    by_cases he : e = 0
    · simp [he]
    · rw [if_neg he, ih (e / 2) (Nat.div_lt_self (Nat.pos_of_ne_zero he) one_lt_two)]
      have h2 : b ^ (e % 2) * (b * b) ^ (e / 2) = b ^ e := by
        rw [← pow_two, ← pow_mul, ← pow_add]
        congr 1
        omega
      by_cases hp : e % 2 = 1
      · rw [if_pos hp, ← h2, hp]
        ring
      · have h0 : e % 2 = 0 := by omega
        rw [if_neg hp, ← h2, h0]
        ring

theorem ipow_eq_pow (b e : ℕ) : ipow b e = b ^ e := by
  rw [ipow, ipowAux_eq, one_mul]

theorem armLoop_eq_iff (d orig : ℕ) :
    ∀ num sum, (armLoop d orig num sum = orig ↔
      sum + ((Nat.digits 10 num).map (fun x => x ^ d)).sum = orig) := by
  intro num
  induction num using Nat.strong_induction_on with
  | _ num ih =>
    intro sum
    rw [armLoop]
    by_cases h0 : num = 0
    · simp [h0]
    · rw [if_neg h0, Nat.digits_def' (by norm_num) (Nat.pos_of_ne_zero h0)]
      simp only [List.map_cons, List.sum_cons, ipow_eq_pow]
      by_cases hov : orig < sum + (num % 10) ^ d
      · rw [if_pos hov]
        constructor
        · intro he
          omega
        · intro he
          omega
      · rw [if_neg hov, ih (num / 10) (Nat.div_lt_self (Nat.pos_of_ne_zero h0) (by norm_num))]
        omega

theorem count_digits_eq (n : ℕ) (h : n ≠ 0) :
    count_digits n = (Nat.digits 10 n).length := by
  rw [count_digits, if_neg h, Nat.digits_len 10 n (by norm_num) h]

/-- C6: for every `n ≥ 1`, `is_armstrong_number_optimized n` returns `true`
exactly when `n` equals the sum of its decimal digits each raised to the
power of its decimal digit count. -/
theorem is_armstrong_number_optimized_correct (n : ℕ) (h : 1 ≤ n) :
    (is_armstrong_number_optimized n = true ↔ armstrong_property n) := by
  rw [is_armstrong_number_optimized, armstrong_property]
  by_cases hlt : n < 10
  · rw [if_pos hlt]
    have hd : Nat.digits 10 n = [n] := by
      rw [Nat.digits_def' (by norm_num : (1:ℕ) < 10) (by omega)]
      have h1 : n % 10 = n := Nat.mod_eq_of_lt hlt
      have h2 : n / 10 = 0 := Nat.div_eq_of_lt hlt
      rw [h1, h2, Nat.digits_zero]
    simp [hd]
  · rw [if_neg hlt, beq_iff_eq, armLoop_eq_iff, count_digits_eq n (by omega), zero_add]
    constructor
    · intro he
      exact he.symm
    · intro he
      exact he.symm

/-- C6 witness: the theorem instantiated at 153, which is an Armstrong
number. -/
theorem is_armstrong_number_optimized_correct_witness :
    1 ≤ 153 ∧ (is_armstrong_number_optimized 153 = true ↔ armstrong_property 153) :=
  ⟨by norm_num, is_armstrong_number_optimized_correct 153 (by norm_num)⟩

theorem digit_powers_getD (d k : ℕ) (h : k < 10) :
    (digit_powers d).getD k 0 = ipow k d := by
  rw [digit_powers, List.getD_eq_getElem?_getD, List.getElem?_map, List.getElem?_range h]
  rfl

theorem armLoopMath_eq_armLoop (d orig : ℕ) :
    ∀ num sum, armLoopMath d orig num sum = armLoop d orig num sum := by
  intro num
  induction num using Nat.strong_induction_on with
  | _ num ih =>
    intro sum
    rw [armLoopMath, armLoop]
    by_cases h0 : num = 0
    · simp [h0]
    · rw [if_neg h0, if_neg h0, digit_powers_getD _ _ (Nat.mod_lt num (by norm_num))]
      by_cases hov : orig < sum + ipow (num % 10) d
      · simp only [if_pos hov]
      · simp only [if_neg hov,
          ih (num / 10) (Nat.div_lt_self (Nat.pos_of_ne_zero h0) (by norm_num))]

/-- C9: the custom-power algorithm and the precomputed-digit-powers algorithm
return the same answer on every input. -/
theorem armstrong_algorithms_agree (n : ℕ) :
    is_armstrong_number_optimized n = is_armstrong_number_math n := by
  rw [is_armstrong_number_optimized, is_armstrong_number_math, armLoopMath_eq_armLoop]


/-! ### Caesar cipher (C10) -/

theorem c_isupper_iff (c : ℕ) : c_isupper c = true ↔ 65 ≤ c ∧ c ≤ 90 := by
  simp [c_isupper, Bool.and_eq_true, decide_eq_true_eq]

theorem c_islower_iff (c : ℕ) : c_islower c = true ↔ 97 ≤ c ∧ c ≤ 122 := by
  simp [c_islower, Bool.and_eq_true, decide_eq_true_eq]

theorem caesar_char_notalpha (sh : ℤ) (c : ℕ) (h : c_isalpha c = false) :
    caesar_shift_char sh c = c := by
  rw [caesar_shift_char, h]
  rfl

theorem caesar_char_upper_val (sh : ℤ) (h1 : -26 ≤ sh) (c : ℕ)
    (hc : 65 ≤ c ∧ c ≤ 90) :
    (caesar_shift_char sh c : ℤ) = ((c : ℤ) - 65 + sh + 26) % 26 + 65 := by
  have hu : c_isupper c = true := (c_isupper_iff c).2 hc
  have ha : c_isalpha c = true := by
    rw [c_isalpha, hu, Bool.true_or]
  rw [caesar_shift_char, if_pos ha, if_pos hu]
  show ((((c : ℤ) - 65 + sh + 26).tmod 26 + 65).toNat : ℤ) = ((c : ℤ) - 65 + sh + 26) % 26 + 65
  have ha0 : (0 : ℤ) ≤ (c : ℤ) - 65 + sh + 26 := by omega
  rw [Int.tmod_eq_emod ha0 (by norm_num)]
  have hm0 : (0 : ℤ) ≤ ((c : ℤ) - 65 + sh + 26) % 26 := Int.emod_nonneg _ (by norm_num)
  rw [Int.toNat_of_nonneg (by omega)]

theorem caesar_char_lower_val (sh : ℤ) (h1 : -26 ≤ sh) (c : ℕ)
    (hc : 97 ≤ c ∧ c ≤ 122) :
    (caesar_shift_char sh c : ℤ) = ((c : ℤ) - 97 + sh + 26) % 26 + 97 := by
  have hl : c_islower c = true := (c_islower_iff c).2 hc
  have hu : c_isupper c = false := by
    rw [c_isupper]
    simp only [Bool.and_eq_false_iff, decide_eq_false_iff_not]
    right
    omega
  have ha : c_isalpha c = true := by
    rw [c_isalpha, hl, Bool.or_true]
  rw [caesar_shift_char, if_pos ha, if_neg (by rw [hu]; exact Bool.false_ne_true)]
  show ((((c : ℤ) - 97 + sh + 26).tmod 26 + 97).toNat : ℤ) = ((c : ℤ) - 97 + sh + 26) % 26 + 97
  have ha0 : (0 : ℤ) ≤ (c : ℤ) - 97 + sh + 26 := by omega
  rw [Int.tmod_eq_emod ha0 (by norm_num)]
  have hm0 : (0 : ℤ) ≤ ((c : ℤ) - 97 + sh + 26) % 26 := Int.emod_nonneg _ (by norm_num)
  rw [Int.toNat_of_nonneg (by omega)]

theorem caesar_char_upper_mem (sh : ℤ) (h1 : -26 ≤ sh) (c : ℕ)
    (hc : 65 ≤ c ∧ c ≤ 90) :
    65 ≤ caesar_shift_char sh c ∧ caesar_shift_char sh c ≤ 90 := by
  have hv := caesar_char_upper_val sh h1 c hc
  have hm0 : (0 : ℤ) ≤ ((c : ℤ) - 65 + sh + 26) % 26 := Int.emod_nonneg _ (by norm_num)
  have hm1 : ((c : ℤ) - 65 + sh + 26) % 26 < 26 := Int.emod_lt_of_pos _ (by norm_num)
  omega

theorem caesar_char_lower_mem (sh : ℤ) (h1 : -26 ≤ sh) (c : ℕ)
    (hc : 97 ≤ c ∧ c ≤ 122) :
    97 ≤ caesar_shift_char sh c ∧ caesar_shift_char sh c ≤ 122 := by
  have hv := caesar_char_lower_val sh h1 c hc
  have hm0 : (0 : ℤ) ≤ ((c : ℤ) - 97 + sh + 26) % 26 := Int.emod_nonneg _ (by norm_num)
  have hm1 : ((c : ℤ) - 97 + sh + 26) % 26 < 26 := Int.emod_lt_of_pos _ (by norm_num)
  omega

theorem caesar_char_roundtrip (s : ℤ) (h0 : 0 ≤ s) (h1 : s ≤ 26) (c : ℕ) :
    caesar_shift_char (-s) (caesar_shift_char s c) = c := by
  by_cases ha : c_isalpha c = true
  · rcases (by simpa [c_isalpha, Bool.or_eq_true] using ha : c_isupper c = true ∨ c_islower c = true) with hu | hl
    · have hc := (c_isupper_iff c).1 hu
      have hmem := caesar_char_upper_mem s (by omega) c hc
      have hv1 := caesar_char_upper_val s (by omega) c hc
      have hv2 := caesar_char_upper_val (-s) (by omega) _ hmem
      have hm0 : (0 : ℤ) ≤ ((c : ℤ) - 65 + s + 26) % 26 := Int.emod_nonneg _ (by norm_num)
      have hm1 : ((c : ℤ) - 65 + s + 26) % 26 < 26 := Int.emod_lt_of_pos _ (by norm_num)
      rw [hv1] at hv2
      omega
    · have hc := (c_islower_iff c).1 hl
      have hmem := caesar_char_lower_mem s (by omega) c hc
      have hv1 := caesar_char_lower_val s (by omega) c hc
      have hv2 := caesar_char_lower_val (-s) (by omega) _ hmem
      have hm0 : (0 : ℤ) ≤ ((c : ℤ) - 97 + s + 26) % 26 := Int.emod_nonneg _ (by norm_num)
      have hm1 : ((c : ℤ) - 97 + s + 26) % 26 < 26 := Int.emod_lt_of_pos _ (by norm_num)
      rw [hv1] at hv2
      omega
  · have ha' : c_isalpha c = false := Bool.eq_false_iff.2 ha
    rw [caesar_char_notalpha s c ha', caesar_char_notalpha _ c ha']

theorem getD_map_lt (str : List ℕ) (f : ℕ → ℕ) (i : ℕ) (hi : i < str.length) :
    (str.map f).getD i 0 = f (str.getD i 0) := by
  rw [List.getD_eq_getElem?_getD, List.getElem?_map, List.getElem?_eq_getElem hi,
    List.getD_eq_getElem?_getD, List.getElem?_eq_getElem hi]
  rfl

/-- C10: for every string and every shift `0 <= s <= 26`, encoding and then
decoding with `caesar_cipher` restores the original string, and in both modes
every non-alphabetic character is unchanged while alphabetic characters keep
their case. -/
theorem caesar_cipher_correct (str : List ℕ) (s : ℤ) (h0 : 0 ≤ s) (h1 : s ≤ 26) :
    caesar_cipher (caesar_cipher str s false) s true = str ∧
    ∀ decode : Bool, (caesar_cipher str s decode).length = str.length ∧
      ∀ i < str.length,
        (c_isalpha (str.getD i 0) = false →
          (caesar_cipher str s decode).getD i 0 = str.getD i 0) ∧
        (c_isupper (str.getD i 0) = true →
          c_isupper ((caesar_cipher str s decode).getD i 0) = true) ∧
        (c_islower (str.getD i 0) = true →
          c_islower ((caesar_cipher str s decode).getD i 0) = true) := by
  constructor
  · rw [caesar_cipher, caesar_cipher, if_pos rfl, if_neg Bool.false_ne_true, List.map_map]
    have hid : caesar_shift_char (-s) ∘ caesar_shift_char s = id :=
      funext (caesar_char_roundtrip s h0 h1)
    rw [hid, List.map_id]
  · intro decode
    have hsh : -26 ≤ (if decode then -s else s) ∧ (if decode then -s else s) ≤ 26 := by
      cases decode <;> constructor <;> simp <;> omega
    constructor
    · rw [caesar_cipher, List.length_map]
    · intro i hi
      rw [caesar_cipher]
      rw [getD_map_lt str _ i hi]
      set c := str.getD i 0 with hc
      set sh := if decode then -s else s with hshdef
      refine ⟨?_, ?_, ?_⟩
      · intro hna
        exact caesar_char_notalpha sh c hna
      · intro hu
        exact (c_isupper_iff _).2 (caesar_char_upper_mem sh hsh.1 c ((c_isupper_iff c).1 hu))
      · intro hl
        exact (c_islower_iff _).2 (caesar_char_lower_mem sh hsh.1 c ((c_islower_iff c).1 hl))

/-- C10 witness: the theorem instantiated on the string "Hello!" with
shift 3. -/
theorem caesar_cipher_correct_witness :
    (0 : ℤ) ≤ 3 ∧ (3 : ℤ) ≤ 26 ∧
    (caesar_cipher (caesar_cipher [72, 101, 108, 108, 111, 33] 3 false) 3 true =
        [72, 101, 108, 108, 111, 33] ∧
      ∀ decode : Bool,
        (caesar_cipher [72, 101, 108, 108, 111, 33] 3 decode).length =
          ([72, 101, 108, 108, 111, 33] : List ℕ).length ∧
        ∀ i < ([72, 101, 108, 108, 111, 33] : List ℕ).length,
          (c_isalpha (([72, 101, 108, 108, 111, 33] : List ℕ).getD i 0) = false →
            (caesar_cipher [72, 101, 108, 108, 111, 33] 3 decode).getD i 0 =
              ([72, 101, 108, 108, 111, 33] : List ℕ).getD i 0) ∧
          (c_isupper (([72, 101, 108, 108, 111, 33] : List ℕ).getD i 0) = true →
            c_isupper ((caesar_cipher [72, 101, 108, 108, 111, 33] 3 decode).getD i 0) = true) ∧
          (c_islower (([72, 101, 108, 108, 111, 33] : List ℕ).getD i 0) = true →
            c_islower ((caesar_cipher [72, 101, 108, 108, 111, 33] 3 decode).getD i 0) = true)) :=
  ⟨by norm_num, by norm_num,
    caesar_cipher_correct [72, 101, 108, 108, 111, 33] 3 (by norm_num) (by norm_num)⟩

/-! ### Merging sorted arrays (C4) -/

theorem merge_perm : ∀ a b : List ℚ, (merge_sorted_arrays a b).Perm (a ++ b) := by
  intro a
  induction a with
  | nil =>
    intro b
    rw [merge_sorted_arrays]
    exact (List.nil_append b).symm ▸ List.Perm.refl b
  | cons x xs iha =>
    intro b
    induction b with
    | nil =>
      rw [merge_sorted_arrays]
      simp
    | cons y ys ihb =>
      rw [merge_sorted_arrays]
      by_cases h : x < y
      · rw [if_pos h]
        exact (iha (y :: ys)).cons x
      · rw [if_neg h]
        exact (ihb.cons y).trans List.perm_middle.symm

theorem merge_mem (a b : List ℚ) (z : ℚ) :
    z ∈ merge_sorted_arrays a b ↔ z ∈ a ∨ z ∈ b := by
  rw [(merge_perm a b).mem_iff, List.mem_append]

theorem merge_sorted : ∀ a b : List ℚ, a.Sorted (· ≤ ·) → b.Sorted (· ≤ ·) →
    (merge_sorted_arrays a b).Sorted (· ≤ ·) := by
  intro a
  induction a with
  | nil =>
    intro b _ hb
    rw [merge_sorted_arrays]
    exact hb
  | cons x xs iha =>
    intro b
    induction b with
    | nil =>
      intro ha _
      rw [merge_sorted_arrays]
      exact ha
    | cons y ys ihb =>
      intro ha hb
      rw [merge_sorted_arrays]
      rcases List.sorted_cons.1 ha with ⟨hxa, hxs⟩
      rcases List.sorted_cons.1 hb with ⟨hyb, hys⟩
      by_cases h : x < y
      · rw [if_pos h]
        refine List.sorted_cons.2 ⟨?_, iha (y :: ys) hxs hb⟩
        intro z hz
        rcases (merge_mem xs (y :: ys) z).1 hz with hz1 | hz2
        · exact hxa z hz1
        · rcases List.mem_cons.1 hz2 with hz3 | hz4
          · exact hz3 ▸ h.le
          · exact h.le.trans (hyb z hz4)
      · rw [if_neg h]
        have hyx : y ≤ x := le_of_not_lt h
        refine List.sorted_cons.2 ⟨?_, ihb ha hys⟩
        intro z hz
        rcases (merge_mem (x :: xs) ys z).1 hz with hz1 | hz2
        · rcases List.mem_cons.1 hz1 with hz3 | hz4
          · exact hz3 ▸ hyx
          · exact hyx.trans (hxa z hz4)
        · exact hyb z hz2

/-- C4: merging two arrays sorted in non-decreasing order yields an array of
length `a_size + b_size`, sorted in non-decreasing order, whose multiset of
values is the union of the inputs' multisets; concretely, merging `[1,3,5]`
and `[2,4,6]` yields `[1,2,3,4,5,6]`. -/
theorem merge_sorted_arrays_correct (a b : List ℚ)
    (ha : a.Sorted (· ≤ ·)) (hb : b.Sorted (· ≤ ·)) :
    (merge_sorted_arrays a b).length = a.length + b.length ∧
    (merge_sorted_arrays a b).Sorted (· ≤ ·) ∧
    (merge_sorted_arrays a b).Perm (a ++ b) ∧
    merge_sorted_arrays [1, 3, 5] [2, 4, 6] = [1, 2, 3, 4, 5, 6] := by
  refine ⟨?_, merge_sorted a b ha hb, merge_perm a b, by norm_num [merge_sorted_arrays]⟩
  rw [(merge_perm a b).length_eq, List.length_append]

/-- C4 witness: the theorem instantiated on the spec's concrete scenario. -/
theorem merge_sorted_arrays_correct_witness :
    ([1, 3, 5] : List ℚ).Sorted (· ≤ ·) ∧ ([2, 4, 6] : List ℚ).Sorted (· ≤ ·) ∧
    ((merge_sorted_arrays [1, 3, 5] [2, 4, 6]).length =
        ([1, 3, 5] : List ℚ).length + ([2, 4, 6] : List ℚ).length ∧
      (merge_sorted_arrays [1, 3, 5] [2, 4, 6]).Sorted (· ≤ ·) ∧
      (merge_sorted_arrays [1, 3, 5] [2, 4, 6]).Perm ([1, 3, 5] ++ [2, 4, 6]) ∧
      merge_sorted_arrays [1, 3, 5] [2, 4, 6] = [1, 2, 3, 4, 5, 6]) :=
  ⟨by decide, by decide,
    merge_sorted_arrays_correct [1, 3, 5] [2, 4, 6] (by decide) (by decide)⟩

/-! ### Matrix transpose and multiplication (C1, C2) -/

theorem writeSeq_notmem (k : ℕ) :
    ∀ (ps : List (ℕ × ℚ)) (d : ℕ → ℚ), (∀ p ∈ ps, p.1 ≠ k) → writeSeq d ps k = d k := by
  intro ps
  induction ps with
  | nil =>
    intro d _
    rfl
  | cons p ps ih =>
    intro d hp
    rw [writeSeq, List.foldl_cons]
    have h1 : writeSeq (writeCell d p.1 p.2) ps k = writeCell d p.1 p.2 k :=
      ih _ (fun q hq => hp q (List.mem_cons_of_mem p hq))
    rw [← writeSeq, h1, writeCell, if_neg (fun h => hp p (List.mem_cons_self p ps) h.symm)]

theorem writeSeq_mem (k : ℕ) (v : ℚ) :
    ∀ (ps : List (ℕ × ℚ)) (d : ℕ → ℚ), (ps.map Prod.fst).Nodup → (k, v) ∈ ps →
      writeSeq d ps k = v := by
  intro ps
  induction ps with
  | nil =>
    intro d _ hm
    exact absurd hm (List.not_mem_nil _)
  | cons p ps ih =>
    intro d hnd hm
    rw [List.map_cons, List.nodup_cons] at hnd
    rw [writeSeq, List.foldl_cons, ← writeSeq]
    rcases List.mem_cons.1 hm with he | hm2
    · have hk : p.1 = k := by rw [← he]
      have : ∀ q ∈ ps, q.1 ≠ k := by
        intro q hq hqk
        refine hnd.1 ?_
        rw [hk, ← hqk]
        exact List.mem_map_of_mem Prod.fst hq
      rw [writeSeq_notmem k ps _ this, writeCell, if_pos hk.symm, ← he]
    · exact ih _ hnd.2 hm2

theorem flat_key_inj (R a b a' b' : ℕ) (ha : a < R) (ha' : a' < R)
    (h : b * R + a = b' * R + a') : a = a' ∧ b = b' := by
  have hm : (R * b + a) % R = (R * b' + a') % R := by rw [Nat.mul_comm R b, Nat.mul_comm R b', h]
  rw [Nat.mul_add_mod, Nat.mul_add_mod, Nat.mod_eq_of_lt ha, Nat.mod_eq_of_lt ha'] at hm
  subst hm
  refine ⟨rfl, ?_⟩
  have hb : b * R = b' * R := by omega
  exact Nat.eq_of_mul_eq_mul_right (by omega) hb

theorem run_transpose_cell (mat : CMatrix) (i j : ℕ) (hi : i < mat.rows) (hj : j < mat.cols) :
    cell (run_transpose mat) j i = cell mat i j := by
  have hkey : (j * mat.rows + i, mat.data (i * mat.cols + j)) ∈
      ((List.range mat.rows ×ˢ List.range mat.cols).map
        (fun p => (p.2 * mat.rows + p.1, mat.data (p.1 * mat.cols + p.2)))) := by
    refine List.mem_map.2 ⟨(i, j), ?_, rfl⟩
    rw [List.mem_product, List.mem_range, List.mem_range]
    exact ⟨hi, hj⟩
  have hnd : (((List.range mat.rows ×ˢ List.range mat.cols).map
      (fun p => (p.2 * mat.rows + p.1, mat.data (p.1 * mat.cols + p.2)))).map Prod.fst).Nodup := by
    rw [List.map_map]
    have hinj : ∀ p ∈ List.range mat.rows ×ˢ List.range mat.cols,
        ∀ q ∈ List.range mat.rows ×ˢ List.range mat.cols,
        (Prod.fst ∘ fun p => (p.2 * mat.rows + p.1, mat.data (p.1 * mat.cols + p.2))) p =
        (Prod.fst ∘ fun p => (p.2 * mat.rows + p.1, mat.data (p.1 * mat.cols + p.2))) q →
        p = q := by
      intro p hp q hq hpq
      rw [List.mem_product, List.mem_range, List.mem_range] at hp hq
      have := flat_key_inj mat.rows p.1 p.2 q.1 q.2 hp.1 hq.1 hpq
      exact Prod.ext this.1 this.2
    exact ((List.nodup_range _).product (List.nodup_range _)).map_on hinj
  show writeSeq (fun _ => (0 : ℚ)) _ (j * (run_transpose mat).cols + i) = _
  exact writeSeq_mem _ _ _ _ hnd hkey

theorem foldl_add_range (f : ℕ → ℚ) :
    ∀ (n : ℕ) (acc : ℚ), (List.range n).foldl (fun s k => s + f k) acc =
      acc + ∑ k ∈ Finset.range n, f k := by
  intro n
  induction n with
  | zero =>
    intro acc
    simp
  | succ n ih =>
    intro acc
    rw [List.range_succ, List.foldl_append, ih, List.foldl_cons, List.foldl_nil,
      Finset.sum_range_succ]
    ring

theorem run_multiply_cell (a b : CMatrix) (i j : ℕ) (hi : i < a.rows) (hj : j < b.cols) :
    cell (run_multiply a b) i j = ∑ k ∈ Finset.range a.cols, cell a i k * cell b k j := by
  have hkey : (i * b.cols + j,
      (List.range a.cols).foldl (fun sum k => sum + a.data (i * a.cols + k) * b.data (k * b.cols + j)) 0) ∈
      ((List.range a.rows ×ˢ List.range b.cols).map
        (fun p => (p.1 * b.cols + p.2,
          (List.range a.cols).foldl
            (fun sum k => sum + a.data (p.1 * a.cols + k) * b.data (k * b.cols + p.2)) 0))) := by
    refine List.mem_map.2 ⟨(i, j), ?_, rfl⟩
    rw [List.mem_product, List.mem_range, List.mem_range]
    exact ⟨hi, hj⟩
  have hnd : (((List.range a.rows ×ˢ List.range b.cols).map
      (fun p => (p.1 * b.cols + p.2,
        (List.range a.cols).foldl
          (fun sum k => sum + a.data (p.1 * a.cols + k) * b.data (k * b.cols + p.2)) 0))).map
      Prod.fst).Nodup := by
    rw [List.map_map]
    have hinj : ∀ p ∈ List.range a.rows ×ˢ List.range b.cols,
        ∀ q ∈ List.range a.rows ×ˢ List.range b.cols,
        p.1 * b.cols + p.2 = q.1 * b.cols + q.2 → p = q := by
      intro p hp q hq hpq
      rw [List.mem_product, List.mem_range, List.mem_range] at hp hq
      have := flat_key_inj b.cols p.2 p.1 q.2 q.1 hp.2 hq.2 hpq
      exact Prod.ext this.2 this.1
    exact ((List.nodup_range _).product (List.nodup_range _)).map_on hinj
  have hcell : cell (run_multiply a b) i j =
      (List.range a.cols).foldl (fun sum k => sum + a.data (i * a.cols + k) * b.data (k * b.cols + j)) 0 := by
    show writeSeq (fun _ => (0 : ℚ)) _ (i * (run_multiply a b).cols + j) = _
    exact writeSeq_mem _ _ _ _ hnd hkey
  rw [hcell, foldl_add_range, zero_add]
  rfl

/-- C1: for valid matrices A (r times c) and B (c times p), `matrix_multiply`
produces an r-times-p matrix whose cell (i,j) is the sum over k of
A[i][k]*B[k][j]; multiplying the 2-by-2 identity matrix by any 2-by-2 matrix
M yields M unchanged. -/
theorem matrix_multiply_correct (a b : CMatrix) (hab : a.cols = b.rows) :
    (run_multiply a b).rows = a.rows ∧ (run_multiply a b).cols = b.cols ∧
    (∀ i < a.rows, ∀ j < b.cols,
      cell (run_multiply a b) i j = ∑ k ∈ Finset.range a.cols, cell a i k * cell b k j) ∧
    (∀ M : CMatrix, M.rows = 2 → M.cols = 2 → MatEq (run_multiply identity2 M) M) := by
  refine ⟨rfl, rfl, ?_, ?_⟩
  · intro i hi j hj
    exact run_multiply_cell a b i j hi hj
  · intro M hr hc
    refine ⟨hr.symm, rfl, ?_⟩
    intro i hi j hj
    have hi2 : i < 2 := hi
    have hj2 : j < M.cols := hj
    rw [show cell (run_multiply identity2 M) i j =
        ∑ k ∈ Finset.range identity2.cols, cell identity2 i k * cell M k j from
      run_multiply_cell identity2 M i j hi2 hj2]
    rw [show identity2.cols = 2 from rfl, Finset.sum_range_succ, Finset.sum_range_succ,
      Finset.sum_range_zero]
    interval_cases i
    · norm_num [cell, identity2]
    · norm_num [cell, identity2]

/-- C2: for every valid matrix (dimensions at most 100), a single
`matrix_transpose` of an r-times-c matrix is c-times-r, and transposing twice
returns a matrix equal to the original. -/
theorem matrix_transpose_involutive (mat : CMatrix) (hr : mat.rows ≤ 100) (hc : mat.cols ≤ 100) :
    (run_transpose mat).rows = mat.cols ∧ (run_transpose mat).cols = mat.rows ∧
    MatEq (run_transpose (run_transpose mat)) mat := by
  refine ⟨rfl, rfl, rfl, rfl, ?_⟩
  intro i hi j hj
  have hi' : i < mat.rows := hi
  have hj' : j < mat.cols := hj
  have h1 : cell (run_transpose (run_transpose mat)) i j = cell (run_transpose mat) j i :=
    run_transpose_cell (run_transpose mat) j i hj' hi'
  rw [h1, run_transpose_cell mat i j hi' hj']

/-- C1 witness: the theorem instantiated on two concrete 2-by-2 matrices. -/
theorem matrix_multiply_correct_witness :
    (CMatrix.mk 2 2 (fun idx => (idx : ℚ))).cols = (CMatrix.mk 2 2 (fun idx => (idx : ℚ) + 1)).rows ∧
    ((run_multiply (CMatrix.mk 2 2 (fun idx => (idx : ℚ))) (CMatrix.mk 2 2 (fun idx => (idx : ℚ) + 1))).rows =
        (CMatrix.mk 2 2 (fun idx => (idx : ℚ))).rows ∧
      (run_multiply (CMatrix.mk 2 2 (fun idx => (idx : ℚ))) (CMatrix.mk 2 2 (fun idx => (idx : ℚ) + 1))).cols =
        (CMatrix.mk 2 2 (fun idx => (idx : ℚ) + 1)).cols ∧
      (∀ i < (CMatrix.mk 2 2 (fun idx => (idx : ℚ))).rows,
        ∀ j < (CMatrix.mk 2 2 (fun idx => (idx : ℚ) + 1)).cols,
        cell (run_multiply (CMatrix.mk 2 2 (fun idx => (idx : ℚ))) (CMatrix.mk 2 2 (fun idx => (idx : ℚ) + 1))) i j =
          ∑ k ∈ Finset.range (CMatrix.mk 2 2 (fun idx => (idx : ℚ))).cols,
            cell (CMatrix.mk 2 2 (fun idx => (idx : ℚ))) i k *
              cell (CMatrix.mk 2 2 (fun idx => (idx : ℚ) + 1)) k j) ∧
      (∀ M : CMatrix, M.rows = 2 → M.cols = 2 → MatEq (run_multiply identity2 M) M)) :=
  ⟨rfl, matrix_multiply_correct (CMatrix.mk 2 2 (fun idx => (idx : ℚ)))
    (CMatrix.mk 2 2 (fun idx => (idx : ℚ) + 1)) rfl⟩

/-- C2 witness: the theorem instantiated on a concrete 2-by-3 matrix. -/
theorem matrix_transpose_involutive_witness :
    (CMatrix.mk 2 3 (fun idx => (idx : ℚ))).rows ≤ 100 ∧
    (CMatrix.mk 2 3 (fun idx => (idx : ℚ))).cols ≤ 100 ∧
    ((run_transpose (CMatrix.mk 2 3 (fun idx => (idx : ℚ)))).rows =
        (CMatrix.mk 2 3 (fun idx => (idx : ℚ))).cols ∧
      (run_transpose (CMatrix.mk 2 3 (fun idx => (idx : ℚ)))).cols =
        (CMatrix.mk 2 3 (fun idx => (idx : ℚ))).rows ∧
      MatEq (run_transpose (run_transpose (CMatrix.mk 2 3 (fun idx => (idx : ℚ)))))
        (CMatrix.mk 2 3 (fun idx => (idx : ℚ)))) :=
  ⟨by norm_num, by norm_num,
    matrix_transpose_involutive (CMatrix.mk 2 3 (fun idx => (idx : ℚ))) (by norm_num) (by norm_num)⟩

/-! ### Swapping the minimum and maximum (C3) -/

theorem cons_set_perm : ∀ (t : List ℚ) (m : ℕ), m < t.length → ∀ a : ℚ,
    ((t.getD m 0) :: t.set m a).Perm (a :: t) := by
  intro t
  induction t with
  | nil =>
    intro m hm
    simp at hm
  | cons b t' ih =>
    intro m hm a
    cases m with
    | zero =>
      simp only [List.getD_cons_zero, List.set_cons_zero]
      exact List.Perm.swap a b t'
    | succ k =>
      have hk : k < t'.length := by simpa using hm
      simp only [List.getD_cons_succ, List.set_cons_succ]
      have h1 : (t'.getD k 0 :: b :: t'.set k a).Perm (b :: t'.getD k 0 :: t'.set k a) :=
        List.Perm.swap b (t'.getD k 0) (t'.set k a)
      have h2 : (b :: t'.getD k 0 :: t'.set k a).Perm (b :: a :: t') :=
        (ih k hk a).cons b
      have h3 : (b :: a :: t').Perm (a :: b :: t') := List.Perm.swap a b t'
      exact (h1.trans h2).trans h3

theorem set_set_perm : ∀ (l : List ℚ) (i j : ℕ), i < l.length → j < l.length →
    ((l.set i (l.getD j 0)).set j (l.getD i 0)).Perm l := by
  intro l
  induction l with
  | nil =>
    intro i j hi
    simp at hi
  | cons a t ih =>
    intro i j hi hj
    cases i with
    | zero =>
      cases j with
      | zero =>
        simp only [List.getD_cons_zero, List.set_cons_zero]
        exact List.Perm.refl _
      | succ m =>
        have hm : m < t.length := by simpa using hj
        simp only [List.getD_cons_zero, List.getD_cons_succ, List.set_cons_zero,
          List.set_cons_succ]
        exact cons_set_perm t m hm a
    | succ k =>
      have hk : k < t.length := by simpa using hi
      cases j with
      | zero =>
        simp only [List.getD_cons_zero, List.getD_cons_succ, List.set_cons_zero,
          List.set_cons_succ]
        exact cons_set_perm t k hk a
      | succ m =>
        have hm : m < t.length := by simpa using hj
        simp only [List.getD_cons_succ, List.set_cons_succ]
        exact (ih k m hk hm).cons a

theorem range'_one_concat (k : ℕ) :
    List.range' 1 (k + 1) = List.range' 1 k ++ [1 + k] := by
  have h := List.range'_append 1 k 1 1
  simp only [List.range'_one, one_mul] at h
  rw [show k + 1 = 1 + k from by omega]
  exact h.symm

theorem mm_scan_inv (arr : List ℚ) :
    ∀ k, k < arr.length →
      ((List.range' 1 k).foldl (mm_step arr)
          (MMState.mk (arr.getD 0 0) 0 (arr.getD 0 0) 0)).min_idx ≤ k ∧
      ((List.range' 1 k).foldl (mm_step arr)
          (MMState.mk (arr.getD 0 0) 0 (arr.getD 0 0) 0)).max_idx ≤ k ∧
      ((List.range' 1 k).foldl (mm_step arr)
          (MMState.mk (arr.getD 0 0) 0 (arr.getD 0 0) 0)).min_val =
        arr.getD ((List.range' 1 k).foldl (mm_step arr)
          (MMState.mk (arr.getD 0 0) 0 (arr.getD 0 0) 0)).min_idx 0 ∧
      ((List.range' 1 k).foldl (mm_step arr)
          (MMState.mk (arr.getD 0 0) 0 (arr.getD 0 0) 0)).max_val =
        arr.getD ((List.range' 1 k).foldl (mm_step arr)
          (MMState.mk (arr.getD 0 0) 0 (arr.getD 0 0) 0)).max_idx 0 ∧
      (∀ t ≤ k, ((List.range' 1 k).foldl (mm_step arr)
          (MMState.mk (arr.getD 0 0) 0 (arr.getD 0 0) 0)).min_val ≤ arr.getD t 0) ∧
      (∀ t < ((List.range' 1 k).foldl (mm_step arr)
          (MMState.mk (arr.getD 0 0) 0 (arr.getD 0 0) 0)).min_idx,
        ((List.range' 1 k).foldl (mm_step arr)
          (MMState.mk (arr.getD 0 0) 0 (arr.getD 0 0) 0)).min_val < arr.getD t 0) ∧
      (∀ t ≤ k, arr.getD t 0 ≤ ((List.range' 1 k).foldl (mm_step arr)
          (MMState.mk (arr.getD 0 0) 0 (arr.getD 0 0) 0)).max_val) ∧
      (∀ t < ((List.range' 1 k).foldl (mm_step arr)
          (MMState.mk (arr.getD 0 0) 0 (arr.getD 0 0) 0)).max_idx,
        arr.getD t 0 < ((List.range' 1 k).foldl (mm_step arr)
          (MMState.mk (arr.getD 0 0) 0 (arr.getD 0 0) 0)).max_val) := by
  intro k
  induction k with
  | zero =>
    intro _
    refine ⟨Nat.le_refl 0, Nat.le_refl 0, rfl, rfl, ?_, ?_, ?_, ?_⟩
    · intro t ht
      rw [Nat.le_zero.1 ht]
      exact le_refl _
    · intro t ht
      exact absurd ht (Nat.not_lt_zero t)
    · intro t ht
      rw [Nat.le_zero.1 ht]
      exact le_refl _
    · intro t ht
      exact absurd ht (Nat.not_lt_zero t)
  | succ k ih =>
    intro hk1
    rcases ih (by omega) with ⟨h1, h2, h3, h4, h5, h6, h7, h8⟩
    rw [range'_one_concat, List.foldl_append, List.foldl_cons, List.foldl_nil]
    set st := (List.range' 1 k).foldl (mm_step arr)
      (MMState.mk (arr.getD 0 0) 0 (arr.getD 0 0) 0) with hst
    have hidx : 1 + k = k + 1 := by omega
    rw [hidx]
    rw [mm_step]
    set v := arr.getD (k + 1) 0 with hv
    by_cases hmin : v < st.min_val
    · rw [if_pos hmin]
      by_cases hmax : st.max_val < v
      · rw [if_pos hmax]
        dsimp only
        refine ⟨by omega, by omega, rfl, rfl, ?_, ?_, ?_, ?_⟩
        · intro t ht
          rcases Nat.lt_succ_iff_lt_or_eq.1 (Nat.lt_succ_of_le ht) with h | h
          · exact le_of_lt (lt_of_lt_of_le hmin (h5 t (by omega)))
          · rw [h]
        · intro t ht
          exact lt_of_lt_of_le hmin (h5 t (by omega))
        · intro t ht
          rcases Nat.lt_succ_iff_lt_or_eq.1 (Nat.lt_succ_of_le ht) with h | h
          · exact le_of_lt (lt_of_le_of_lt (h7 t (by omega)) hmax)
          · rw [h]
        · intro t ht
          exact lt_of_le_of_lt (h7 t (by omega)) hmax
      · rw [if_neg hmax]
        dsimp only
        refine ⟨by omega, by omega, rfl, h4, ?_, ?_, ?_, ?_⟩
        · intro t ht
          rcases Nat.lt_succ_iff_lt_or_eq.1 (Nat.lt_succ_of_le ht) with h | h
          · exact le_of_lt (lt_of_lt_of_le hmin (h5 t (by omega)))
          · rw [h]
        · intro t ht
          exact lt_of_lt_of_le hmin (h5 t (by omega))
        · intro t ht
          rcases Nat.lt_succ_iff_lt_or_eq.1 (Nat.lt_succ_of_le ht) with h | h
          · exact h7 t (by omega)
          · rw [h]
            exact le_of_not_lt hmax
        · exact h8
    · rw [if_neg hmin]
      by_cases hmax : st.max_val < v
      · rw [if_pos hmax]
        dsimp only
        refine ⟨by omega, by omega, h3, rfl, ?_, ?_, ?_, ?_⟩
        · intro t ht
          rcases Nat.lt_succ_iff_lt_or_eq.1 (Nat.lt_succ_of_le ht) with h | h
          · exact h5 t (by omega)
          · rw [h]
            exact le_of_not_lt hmin
        · exact h6
        · intro t ht
          rcases Nat.lt_succ_iff_lt_or_eq.1 (Nat.lt_succ_of_le ht) with h | h
          · exact le_of_lt (lt_of_le_of_lt (h7 t (by omega)) hmax)
          · rw [h]
        · intro t ht
          exact lt_of_le_of_lt (h7 t (by omega)) hmax
      · rw [if_neg hmax]
        refine ⟨by omega, by omega, h3, h4, ?_, h6, ?_, h8⟩
        · intro t ht
          rcases Nat.lt_succ_iff_lt_or_eq.1 (Nat.lt_succ_of_le ht) with h | h
          · exact h5 t (by omega)
          · rw [h]
            exact le_of_not_lt hmin
        · intro t ht
          rcases Nat.lt_succ_iff_lt_or_eq.1 (Nat.lt_succ_of_le ht) with h | h
          · exact h7 t (by omega)
          · rw [h]
            exact le_of_not_lt hmax

/-- C3 (amended): for every array of size at least 1, `swap_min_max` as
executed sequentially (a single thread) preserves the multiset of values and
exchanges exactly the positions of the global minimum and global maximum —
on ties the first (lowest-index) occurrence of each — leaving every other
position unchanged.  (Under the default multithreaded execution the
critical-section arrival order can select a non-first occurrence of a tied
extremum; see the counterexample below.) -/
theorem swap_min_max_correct (arr : List ℚ) (h : 1 ≤ arr.length) :
    (swap_min_max arr).Perm arr ∧
    ∃ mi ma : ℕ,
      mi < arr.length ∧ ma < arr.length ∧
      (∀ t < arr.length, arr.getD mi 0 ≤ arr.getD t 0) ∧
      (∀ t < mi, arr.getD mi 0 < arr.getD t 0) ∧
      (∀ t < arr.length, arr.getD t 0 ≤ arr.getD ma 0) ∧
      (∀ t < ma, arr.getD t 0 < arr.getD ma 0) ∧
      (swap_min_max arr).length = arr.length ∧
      (swap_min_max arr).getD mi 0 = arr.getD ma 0 ∧
      (swap_min_max arr).getD ma 0 = arr.getD mi 0 ∧
      ∀ t < arr.length, t ≠ mi → t ≠ ma → (swap_min_max arr).getD t 0 = arr.getD t 0 := by
  have hs : swap_min_max arr =
      (arr.set (mm_scan arr).min_idx (arr.getD (mm_scan arr).max_idx 0)).set
        (mm_scan arr).max_idx (arr.getD (mm_scan arr).min_idx 0) := by
    rw [swap_min_max, if_neg (by omega)]
  have hinv := mm_scan_inv arr (arr.length - 1) (by omega)
  have hmm : mm_scan arr = (List.range' 1 (arr.length - 1)).foldl (mm_step arr)
      (MMState.mk (arr.getD 0 0) 0 (arr.getD 0 0) 0) := rfl
  rw [← hmm] at hinv
  rcases hinv with ⟨h1, h2, h3, h4, h5, h6, h7, h8⟩
  have hmi : (mm_scan arr).min_idx < arr.length := by omega
  have hma : (mm_scan arr).max_idx < arr.length := by omega
  constructor
  · rw [hs]
    exact set_set_perm arr (mm_scan arr).min_idx (mm_scan arr).max_idx hmi hma
  refine ⟨(mm_scan arr).min_idx, (mm_scan arr).max_idx, hmi, hma, ?_, ?_, ?_, ?_, ?_, ?_, ?_, ?_⟩
  · intro t ht
    rw [← h3]
    exact h5 t (by omega)
  · intro t ht
    rw [← h3]
    exact h6 t ht
  · intro t ht
    rw [← h4]
    exact h7 t (by omega)
  · intro t ht
    rw [← h4]
    exact h8 t ht
  · rw [hs, List.length_set, List.length_set]
  · by_cases heq : (mm_scan arr).min_idx = (mm_scan arr).max_idx
    · rw [hs, heq, List.getD_eq_getElem?_getD,
        List.getElem?_set_self (by rw [List.length_set]; exact hma)]
      rfl
    · rw [hs, List.getD_eq_getElem?_getD,
        List.getElem?_set_ne (fun hx => heq hx.symm),
        List.getElem?_set_self hmi]
      rfl
  · rw [hs, List.getD_eq_getElem?_getD,
      List.getElem?_set_self (by rw [List.length_set]; exact hma)]
    rfl
  · intro t ht htmi htma
    rw [hs, List.getD_eq_getElem?_getD, List.getElem?_set_ne (fun hx => htma hx.symm),
      List.getElem?_set_ne (fun hx => htmi hx.symm), ← List.getD_eq_getElem?_getD]

/-- C3 witness: the theorem instantiated on the array [3, 1, 2, 5, 0]. -/
theorem swap_min_max_correct_witness :
    1 ≤ ([3, 1, 2, 5, 0] : List ℚ).length ∧
    ((swap_min_max [3, 1, 2, 5, 0]).Perm [3, 1, 2, 5, 0] ∧
      ∃ mi ma : ℕ,
        mi < ([3, 1, 2, 5, 0] : List ℚ).length ∧ ma < ([3, 1, 2, 5, 0] : List ℚ).length ∧
        (∀ t < ([3, 1, 2, 5, 0] : List ℚ).length,
          ([3, 1, 2, 5, 0] : List ℚ).getD mi 0 ≤ ([3, 1, 2, 5, 0] : List ℚ).getD t 0) ∧
        (∀ t < mi, ([3, 1, 2, 5, 0] : List ℚ).getD mi 0 < ([3, 1, 2, 5, 0] : List ℚ).getD t 0) ∧
        (∀ t < ([3, 1, 2, 5, 0] : List ℚ).length,
          ([3, 1, 2, 5, 0] : List ℚ).getD t 0 ≤ ([3, 1, 2, 5, 0] : List ℚ).getD ma 0) ∧
        (∀ t < ma, ([3, 1, 2, 5, 0] : List ℚ).getD t 0 < ([3, 1, 2, 5, 0] : List ℚ).getD ma 0) ∧
        (swap_min_max [3, 1, 2, 5, 0]).length = ([3, 1, 2, 5, 0] : List ℚ).length ∧
        (swap_min_max [3, 1, 2, 5, 0]).getD mi 0 = ([3, 1, 2, 5, 0] : List ℚ).getD ma 0 ∧
        (swap_min_max [3, 1, 2, 5, 0]).getD ma 0 = ([3, 1, 2, 5, 0] : List ℚ).getD mi 0 ∧
        ∀ t < ([3, 1, 2, 5, 0] : List ℚ).length, t ≠ mi → t ≠ ma →
          (swap_min_max [3, 1, 2, 5, 0]).getD t 0 = ([3, 1, 2, 5, 0] : List ℚ).getD t 0) :=
  ⟨by decide, swap_min_max_correct [3, 1, 2, 5, 0] (by decide)⟩

/-- C3 counterexample: on `[5, 1, 9, 1]` the minimum value 1 is tied between
indices 1 and 3.  With two workers owning the loop-index blocks `\x7b1, 2\x7d`
and `\x7b3\x7d` (the static split of iterations 1..3) and the `\x7b3\x7d`
worker reaching the critical section first, the strict-`<` merge keeps index
3, so the program swaps positions 3 and 2 and produces `[5, 1, 1, 9]` — it
changes position 3, which the claim requires to keep its value, and differs
from the claimed result `[5, 9, 1, 1]` (first occurrence, index 1, swapped
with the maximum at index 2), which the sequential execution produces. -/
theorem swap_min_max_tie_counterexample :
    swap_min_max_threaded [5, 1, 9, 1] [[3], [1, 2]] = [5, 1, 1, 9] ∧
    swap_min_max [5, 1, 9, 1] = [5, 9, 1, 1] ∧
    swap_min_max_threaded [5, 1, 9, 1] [[3], [1, 2]] ≠ swap_min_max [5, 1, 9, 1] ∧
    ([5, 1, 9, 1] : List ℚ).getD 1 0 = ([5, 1, 9, 1] : List ℚ).getD 3 0 ∧
    (swap_min_max_threaded [5, 1, 9, 1] [[3], [1, 2]]).getD 3 0 ≠
      ([5, 1, 9, 1] : List ℚ).getD 3 0 := by
  refine ⟨by decide, by decide, by decide, by decide, by decide⟩

/-! ### Threaded versus sequential Armstrong search (C5) -/

theorem chunks_cover_partial (N T : ℕ) :
    ∀ t, t ≤ T - 1 → ((List.range t).map (chunk_range N T)).flatten =
      List.range' 1 (t * (N / T)) := by
  intro t
  induction t with
  | zero =>
    intro _
    simp
  | succ t ih =>
    intro ht
    rw [List.range_succ, List.map_append, List.map_singleton, List.flatten_append,
      ih (by omega)]
    have hne : t ≠ T - 1 := by omega
    have hmul : (t + 1) * (N / T) = t * (N / T) + N / T := by ring
    have hcr : chunk_range N T t = List.range' (t * (N / T) + 1) (N / T) := by
      rw [chunk_range, chunk_start, chunk_end, if_neg hne, hmul]
      generalize N / T = cs
      congr 1
      omega
    rw [hcr]
    have happ := List.range'_append 1 (t * (N / T)) (N / T) 1
    simp only [one_mul] at happ
    rw [List.flatten_cons, List.flatten_nil, List.append_nil]
    rw [show t * (N / T) + 1 = 1 + t * (N / T) from by omega, happ]
    congr 1
    ring

theorem chunks_cover (N T : ℕ) (hT : 1 ≤ T) :
    ((List.range T).map (chunk_range N T)).flatten = List.range' 1 N := by
  obtain ⟨S, rfl⟩ : ∃ S, T = S + 1 := ⟨T - 1, by omega⟩
  rw [List.range_succ, List.map_append, List.map_singleton, List.flatten_append,
    chunks_cover_partial N (S + 1) S (by omega)]
  have hle : S * (N / (S + 1)) ≤ N := by
    calc S * (N / (S + 1)) ≤ (S + 1) * (N / (S + 1)) := Nat.mul_le_mul_right _ (by omega)
      _ = (N / (S + 1)) * (S + 1) := by ring
      _ ≤ N := Nat.div_mul_le_self N (S + 1)
  have hcr : chunk_range N (S + 1) S =
      List.range' (S * (N / (S + 1)) + 1) (N - S * (N / (S + 1))) := by
    rw [chunk_range, chunk_start, chunk_end, if_pos (by omega : S = S + 1 - 1)]
    generalize N / (S + 1) = cs
    congr 1
    omega
  rw [hcr, List.flatten_cons, List.flatten_nil, List.append_nil]
  have happ := List.range'_append 1 (S * (N / (S + 1))) (N - S * (N / (S + 1))) 1
  simp only [one_mul] at happ
  rw [show S * (N / (S + 1)) + 1 = 1 + S * (N / (S + 1)) from by omega, happ]
  congr 1
  generalize hg : N / (S + 1) = cs at hle ⊢
  omega

theorem threaded_eq_sequential (f : ℕ → Bool) (N T : ℕ) (hT : 1 ≤ T) :
    threaded_results f N T = sequential_results f N := by
  rw [threaded_results, sequential_results, ← chunks_cover N T hT, List.filter_flatten,
    List.map_map]
  rfl

theorem bpass_perm : ∀ (k : ℕ) (l : List ℕ), (bpass l k).Perm l := by
  intro k
  induction k with
  | zero =>
    intro l
    rw [bpass]
  | succ k ih =>
    intro l
    match l with
    | [] =>
      rw [bpass]
    | [a] =>
      rw [bpass]
    | a :: b :: t =>
      rw [bpass]
      by_cases h : b < a
      · rw [if_pos h]
        exact ((ih (a :: t)).cons b).trans (List.Perm.swap a b t)
      · rw [if_neg h]
        exact (ih (b :: t)).cons a

theorem bpass_spec : ∀ (k : ℕ) (l : List ℕ), k + 1 ≤ l.length →
    ∃ q m, bpass l k = q ++ m :: l.drop (k + 1) ∧
      (q ++ [m]).Perm (l.take (k + 1)) ∧ ∀ x ∈ q, x ≤ m := by
  intro k
  induction k with
  | zero =>
    intro l hl
    match l with
    | a :: t =>
      refine ⟨[], a, ?_, ?_, ?_⟩
      · rw [bpass]
        rfl
      · simp
      · intro x hx
        simp at hx
  | succ k ih =>
    intro l hl
    match l with
    | [] => simp at hl
    | [a] => simp at hl
    | a :: b :: t =>
      have hlen : k + 1 ≤ (List.length t) + 1 := by
        simp at hl
        omega
      rw [bpass]
      by_cases h : b < a
      · rw [if_pos h]
        obtain ⟨q, m, h1, h2, h3⟩ := ih (a :: t) (by simpa using hlen)
        refine ⟨b :: q, m, ?_, ?_, ?_⟩
        · rw [h1]
          rfl
        · have hsw : (b :: (a :: t).take (k + 1)).Perm ((a :: b :: t).take (k + 2)) := by
            rw [show k + 2 = k + 1 + 1 from rfl, List.take_succ_cons, List.take_succ_cons,
              List.take_succ_cons]
            exact List.Perm.swap a b (t.take k)
          exact ((h2.cons b).trans hsw)
        · intro x hx
          rcases List.mem_cons.1 hx with hxb | hxq
          · have ham : a ∈ q ++ [m] := h2.symm.subset (by
              rw [List.take_succ_cons]
              exact List.mem_cons_self a _)
            rcases List.mem_append.1 ham with haq | ham2
            · exact hxb ▸ (le_of_lt (lt_of_lt_of_le h (h3 a haq)))
            · have : a = m := by simpa using ham2
              exact hxb ▸ (le_of_lt (this ▸ h))
          · exact h3 x hxq
      · rw [if_neg h]
        obtain ⟨q, m, h1, h2, h3⟩ := ih (b :: t) (by simpa using hlen)
        refine ⟨a :: q, m, ?_, ?_, ?_⟩
        · rw [h1]
          rfl
        · rw [show k + 2 = k + 1 + 1 from rfl, List.take_succ_cons]
          exact h2.cons a
        · intro x hx
          rcases List.mem_cons.1 hx with hxa | hxq
          · have hbm : b ∈ q ++ [m] := h2.symm.subset (by
              rw [List.take_succ_cons]
              exact List.mem_cons_self b _)
            have hble : b ≤ m := by
              rcases List.mem_append.1 hbm with hbq | hbm2
              · exact h3 b hbq
              · have hb : b = m := by simpa using hbm2
                exact hb ▸ le_refl b
            exact hxa ▸ le_trans (le_of_not_lt h) hble
          · exact h3 x hxq

theorem bubble_passes_perm : ∀ (k : ℕ) (l : List ℕ), (bubble_passes l k).Perm l := by
  intro k
  induction k with
  | zero =>
    intro l
    rw [bubble_passes]
  | succ k ih =>
    intro l
    rw [bubble_passes]
    exact (ih (bpass l (k + 1))).trans (bpass_perm (k + 1) l)

theorem bubble_passes_sorted : ∀ (k : ℕ) (l : List ℕ), k + 1 ≤ l.length →
    (l.drop (k + 1)).Sorted (· ≤ ·) →
    (∀ x ∈ l.take (k + 1), ∀ y ∈ l.drop (k + 1), x ≤ y) →
    (bubble_passes l k).Sorted (· ≤ ·) := by
  intro k
  induction k with
  | zero =>
    intro l hl hsort hxy
    rw [bubble_passes]
    match l with
    | a :: t =>
      refine List.sorted_cons.2 ⟨?_, hsort⟩
      intro b hb
      exact hxy a (by simp) b hb
  | succ k ih =>
    intro l hl hsort hxy
    rw [bubble_passes]
    obtain ⟨q, m, h1, h2, h3⟩ := bpass_spec (k + 1) l hl
    have hql : q.length + 1 = k + 2 := by
      have := h2.length_eq
      rw [List.length_append, List.length_singleton, List.length_take] at this
      omega
    have hmem : m ∈ l.take (k + 2) := h2.subset (List.mem_append.2 (Or.inr (by simp)))
    have hlen' : (bpass l (k + 1)).length = l.length := (bpass_perm (k + 1) l).length_eq
    refine ih (bpass l (k + 1)) (by omega) ?_ ?_
    · rw [h1, List.drop_left' (by omega : q.length = k + 1)]
      refine List.sorted_cons.2 ⟨?_, hsort⟩
      intro y hy
      exact hxy m hmem y hy
    · intro x hx y hy
      rw [h1, List.take_left' (by omega : q.length = k + 1)] at hx
      rw [h1, List.drop_left' (by omega : q.length = k + 1)] at hy
      rcases List.mem_cons.1 hy with hym | hyd
      · exact hym ▸ h3 x hx
      · exact hxy x (h2.subset (List.mem_append.2 (Or.inl hx))) y hyd

theorem bubble_sort_perm (l : List ℕ) : (bubble_sort l).Perm l :=
  bubble_passes_perm (l.length - 1) l

theorem bubble_sort_sorted (l : List ℕ) : (bubble_sort l).Sorted (· ≤ ·) := by
  match l with
  | [] =>
    exact List.sorted_nil
  | a :: t =>
    rw [bubble_sort]
    refine bubble_passes_sorted ((a :: t).length - 1) (a :: t) (by simp) ?_ ?_
    · rw [List.drop_eq_nil_of_le (by simp)]
      exact List.sorted_nil
    · intro x hx y hy
      rw [List.drop_eq_nil_of_le (by simp)] at hy
      exact absurd hy (List.not_mem_nil y)

/-- C5: for every limit N >= 1 and thread count T in 1..16, the union of the
per-chunk results of the threaded Armstrong search over [1, N] equals (as a
set) the result of the sequential search with the same algorithm, and the
threaded search's bubble sort puts its collected result list into ascending
order before printing. -/
theorem threaded_armstrong_equals_sequential (f : ℕ → Bool) (N T : ℕ)
    (hN : 1 ≤ N) (hT1 : 1 ≤ T) (hT16 : T ≤ 16) :
    (threaded_results f N T).toFinset = (sequential_results f N).toFinset ∧
    (bubble_sort (threaded_results f N T)).Perm (threaded_results f N T) ∧
    (bubble_sort (threaded_results f N T)).Sorted (· ≤ ·) :=
  ⟨by rw [threaded_eq_sequential f N T hT1], bubble_sort_perm _, bubble_sort_sorted _⟩

/-- C5 witness: the theorem instantiated with the optimized Armstrong test,
limit 200 and 3 threads. -/
theorem threaded_armstrong_equals_sequential_witness :
    1 ≤ 200 ∧ 1 ≤ 3 ∧ 3 ≤ 16 ∧
    ((threaded_results is_armstrong_number_optimized 200 3).toFinset =
        (sequential_results is_armstrong_number_optimized 200).toFinset ∧
      (bubble_sort (threaded_results is_armstrong_number_optimized 200 3)).Perm
        (threaded_results is_armstrong_number_optimized 200 3) ∧
      (bubble_sort (threaded_results is_armstrong_number_optimized 200 3)).Sorted (· ≤ ·)) :=
  ⟨by norm_num, by norm_num, by norm_num,
    threaded_armstrong_equals_sequential is_armstrong_number_optimized 200 3
      (by norm_num) (by norm_num) (by norm_num)⟩

/-! ### Matrix file reading (C7, C8) -/

theorem first_pass_fixed_cols (cols : ℕ) (hc : cols ≠ 0) :
    ∀ (lines : List (List ℕ)) (rows : ℕ),
      first_pass lines rows cols =
        if (token_counts lines).all (fun x => x == cols) then
          some (rows + (nonempty_lines lines).length, cols)
        else none := by
  intro lines
  induction lines with
  | nil =>
    intro rows
    simp [first_pass, token_counts, nonempty_lines]
  | cons line rest ih =>
    intro rows
    rw [first_pass]
    by_cases hskip : line.length < 2
    · rw [if_pos hskip, ih rows]
      have hfilt : nonempty_lines (line :: rest) = nonempty_lines rest := by
        rw [nonempty_lines, List.filter_cons, if_neg (by simpa using hskip)]
        rfl
      have hcnt : token_counts (line :: rest) = token_counts rest := by
        rw [token_counts, hfilt, token_counts]
      rw [hcnt, hfilt]
    · rw [if_neg hskip, if_neg hc]
      have hfilt : nonempty_lines (line :: rest) = line :: nonempty_lines rest := by
        rw [nonempty_lines, List.filter_cons, if_pos (by simpa using Nat.le_of_not_lt hskip)]
        rfl
      have hcnt : token_counts (line :: rest) = count_tokens line :: token_counts rest := by
        rw [token_counts, hfilt, List.map_cons, token_counts]
      rw [hcnt, hfilt]
      by_cases hne : count_tokens line ≠ cols
      · rw [if_pos hne, List.all_cons]
        have : (count_tokens line == cols) = false := by simpa using hne
        rw [this, Bool.false_and, if_neg (by simp)]
      · rw [if_neg hne, ih (rows + 1)]
        push_neg at hne
        rw [List.all_cons, show (count_tokens line == cols) = true from by simpa using hne,
          Bool.true_and, List.length_cons]
        by_cases hall : (token_counts rest).all (fun x => x == cols) = true
        · rw [if_pos hall, if_pos hall]
          congr 2
          omega
        · rw [if_neg hall, if_neg hall]

theorem first_pass_open_cols :
    ∀ (lines : List (List ℕ)) (rows : ℕ),
      first_pass lines rows 0 =
        if counts_consistent (token_counts lines) then
          some (rows + (nonempty_lines lines).length, first_nonzero (token_counts lines))
        else none := by
  intro lines
  induction lines with
  | nil =>
    intro rows
    simp [first_pass, token_counts, nonempty_lines, counts_consistent, first_nonzero]
  | cons line rest ih =>
    intro rows
    rw [first_pass]
    by_cases hskip : line.length < 2
    · rw [if_pos hskip, ih rows]
      have hfilt : nonempty_lines (line :: rest) = nonempty_lines rest := by
        rw [nonempty_lines, List.filter_cons, if_neg (by simpa using hskip)]
        rfl
      have hcnt : token_counts (line :: rest) = token_counts rest := by
        rw [token_counts, hfilt, token_counts]
      rw [hcnt, hfilt]
    · rw [if_neg hskip, if_pos rfl]
      have hfilt : nonempty_lines (line :: rest) = line :: nonempty_lines rest := by
        rw [nonempty_lines, List.filter_cons, if_pos (by simpa using Nat.le_of_not_lt hskip)]
        rfl
      have hcnt : token_counts (line :: rest) = count_tokens line :: token_counts rest := by
        rw [token_counts, hfilt, List.map_cons, token_counts]
      rw [hcnt, hfilt, List.length_cons]
      by_cases hz : count_tokens line = 0
      · rw [hz, ih (rows + 1)]
        rw [counts_consistent, if_pos rfl, first_nonzero, if_pos rfl]
        by_cases hcons : counts_consistent (token_counts rest) = true
        · rw [if_pos hcons, if_pos hcons]
          congr 2
          omega
        · rw [if_neg hcons, if_neg hcons]
      · rw [first_pass_fixed_cols (count_tokens line) hz rest (rows + 1)]
        rw [counts_consistent, if_neg hz, first_nonzero, if_neg hz]
        by_cases hall : (token_counts rest).all (fun x => x == count_tokens line) = true
        · rw [if_pos hall, if_pos hall]
          congr 2
          omega
        · rw [if_neg hall, if_neg hall]

theorem first_pass_characterization (lines : List (List ℕ)) :
    first_pass lines 0 0 =
      if counts_consistent (token_counts lines) then
        some ((nonempty_lines lines).length, first_nonzero (token_counts lines))
      else none := by
  rw [first_pass_open_cols lines 0]
  by_cases h : counts_consistent (token_counts lines) = true
  · rw [if_pos h, if_pos h, Nat.zero_add]
  · rw [if_neg h, if_neg h]

theorem read_matrix_unfold (lines : List (List ℕ)) (r c : ℕ)
    (h : first_pass lines 0 0 = some (r, c)) :
    read_matrix_from_file lines =
      if 100 < r ∨ 100 < c then none
      else
        match second_pass (all_tokens lines) 0 with
        | none => none
        | some vals => some (CMatrix.mk r c (fun idx => vals.getD idx 0)) := by
  rw [read_matrix_from_file, h]

/-- C7 (amended): the load succeeds only when, from the first token-bearing
non-empty line onward, every non-empty line carries the same number of
numeric tokens as that line (non-empty lines with zero tokens before it are
accepted and still counted as rows); any later differing token count makes
the load fail with no matrix produced; on success the row count is the
number of non-empty lines (length at least 2, newline included) and the
column count is the token count of the first token-bearing line. -/
theorem read_matrix_consistency :
    (∀ (lines : List (List ℕ)) (m : CMatrix), read_matrix_from_file lines = some m →
      counts_consistent (token_counts lines) = true ∧
      m.rows = (nonempty_lines lines).length ∧
      m.cols = first_nonzero (token_counts lines)) ∧
    (∀ lines : List (List ℕ), counts_consistent (token_counts lines) = false →
      read_matrix_from_file lines = none) := by
  constructor
  · intro lines m h
    by_cases hcons : counts_consistent (token_counts lines) = true
    · have hfp : first_pass lines 0 0 =
          some ((nonempty_lines lines).length, first_nonzero (token_counts lines)) := by
        rw [first_pass_characterization, if_pos hcons]
      rw [read_matrix_unfold lines _ _ hfp] at h
      by_cases hdim : 100 < (nonempty_lines lines).length ∨
          100 < first_nonzero (token_counts lines)
      · rw [if_pos hdim] at h
        exact absurd h (by simp)
      · rw [if_neg hdim] at h
        cases hsp : second_pass (all_tokens lines) 0 with
        | none =>
          rw [hsp] at h
          exact absurd h (by simp)
        | some vals =>
          rw [hsp] at h
          have hm := Option.some.inj h
          refine ⟨hcons, ?_, ?_⟩
          · rw [← hm]
          · rw [← hm]
    · rw [read_matrix_from_file, first_pass_characterization,
        if_neg hcons] at h
      exact absurd h (by simp)
  · intro lines hbad
    rw [read_matrix_from_file, first_pass_characterization, if_neg (by rw [hbad]; simp)]

/-- C7 counterexample: the claim as stated is false.  On the file with lines
"   " (three spaces), "1 2" and "3 4", the first non-empty line carries 0
numeric tokens while the others carry 2, yet `read_matrix_from_file`
succeeds and reports 3 rows. -/
theorem read_matrix_counterexample :
    (read_matrix_from_file [[32, 32, 32, 10], [49, 32, 50, 10], [51, 32, 52, 10]]).isSome = true ∧
    2 ≤ ([32, 32, 32, 10] : List ℕ).length ∧
    count_tokens [32, 32, 32, 10] = 0 ∧
    count_tokens [49, 32, 50, 10] = 2 ∧
    (read_matrix_from_file [[32, 32, 32, 10], [49, 32, 50, 10], [51, 32, 52, 10]]).elim 0 CMatrix.rows = 3 := by
  refine ⟨by decide, by decide, by decide, by decide, by decide⟩

/-- C8: every successfully read matrix satisfies rows <= 100, cols <= 100 and
rows * cols <= 10000; a file whose first pass reports more than 100 rows or
columns is rejected; and the transpose and multiply wrappers preserve the
100-bound on dimensions. -/
theorem matrix_capacity_invariant :
    (∀ (lines : List (List ℕ)) (m : CMatrix), read_matrix_from_file lines = some m →
      m.rows ≤ 100 ∧ m.cols ≤ 100 ∧ m.rows * m.cols ≤ 10000) ∧
    (∀ (lines : List (List ℕ)) (r c : ℕ), first_pass lines 0 0 = some (r, c) →
      100 < r ∨ 100 < c → read_matrix_from_file lines = none) ∧
    (∀ mat : CMatrix, mat.rows ≤ 100 → mat.cols ≤ 100 →
      (run_transpose mat).rows ≤ 100 ∧ (run_transpose mat).cols ≤ 100) ∧
    (∀ a b : CMatrix, a.rows ≤ 100 → a.cols ≤ 100 → b.rows ≤ 100 → b.cols ≤ 100 →
      (run_multiply a b).rows ≤ 100 ∧ (run_multiply a b).cols ≤ 100) := by
  refine ⟨?_, ?_, ?_, ?_⟩
  · intro lines m h
    cases hfp : first_pass lines 0 0 with
    | none =>
      rw [read_matrix_from_file, hfp] at h
      exact absurd h (by simp)
    | some rc =>
      obtain ⟨r, c⟩ := rc
      rw [read_matrix_unfold lines r c hfp] at h
      by_cases hdim : 100 < r ∨ 100 < c
      · rw [if_pos hdim] at h
        exact absurd h (by simp)
      · rw [if_neg hdim] at h
        push_neg at hdim
        cases hsp : second_pass (all_tokens lines) 0 with
        | none =>
          rw [hsp] at h
          exact absurd h (by simp)
        | some vals =>
          rw [hsp] at h
          have hm := Option.some.inj h
          rw [← hm]
          refine ⟨hdim.1, hdim.2, ?_⟩
          calc r * c ≤ 100 * 100 := Nat.mul_le_mul hdim.1 hdim.2
            _ = 10000 := by norm_num
  · intro lines r c hfp hdim
    rw [read_matrix_unfold lines r c hfp, if_pos hdim]
  · intro mat h1 h2
    exact ⟨h2, h1⟩
  · intro a b h1 h2 h3 h4
    exact ⟨h1, h4⟩

/-- C7 witness: the amended theorem applied to a consistent two-line file
and to a file whose second line has a differing token count. -/
theorem read_matrix_consistency_witness :
    (∃ m : CMatrix, read_matrix_from_file [[49, 32, 50, 10], [51, 32, 52, 10]] = some m ∧
      (counts_consistent (token_counts [[49, 32, 50, 10], [51, 32, 52, 10]]) = true ∧
        m.rows = (nonempty_lines [[49, 32, 50, 10], [51, 32, 52, 10]]).length ∧
        m.cols = first_nonzero (token_counts [[49, 32, 50, 10], [51, 32, 52, 10]]))) ∧
    (counts_consistent (token_counts [[49, 32, 50, 10], [51, 32, 52, 32, 53, 10]]) = false ∧
      read_matrix_from_file [[49, 32, 50, 10], [51, 32, 52, 32, 53, 10]] = none) := by
  constructor
  · cases h : read_matrix_from_file [[49, 32, 50, 10], [51, 32, 52, 10]] with
    | none =>
      have hs : (read_matrix_from_file [[49, 32, 50, 10], [51, 32, 52, 10]]).isSome = true := by
        decide
      rw [h] at hs
      exact absurd hs (by simp)
    | some m =>
      exact ⟨m, rfl, read_matrix_consistency.1 [[49, 32, 50, 10], [51, 32, 52, 10]] m h⟩
  · exact ⟨by decide,
      read_matrix_consistency.2 [[49, 32, 50, 10], [51, 32, 52, 32, 53, 10]] (by decide)⟩

/-- C8 witness: the theorem applied to a concrete 2-by-2 file, a 101-row
file, and concrete in-bound matrices. -/
theorem matrix_capacity_invariant_witness :
    (∃ m : CMatrix, read_matrix_from_file [[49, 32, 50, 10], [51, 32, 52, 10]] = some m ∧
      (m.rows ≤ 100 ∧ m.cols ≤ 100 ∧ m.rows * m.cols ≤ 10000)) ∧
    (first_pass (List.replicate 101 [49, 10]) 0 0 = some (101, 1) ∧
      read_matrix_from_file (List.replicate 101 [49, 10]) = none) ∧
    ((CMatrix.mk 2 3 (fun _ => (0 : ℚ))).rows ≤ 100 ∧
      (run_transpose (CMatrix.mk 2 3 (fun _ => (0 : ℚ)))).rows ≤ 100 ∧
      (run_transpose (CMatrix.mk 2 3 (fun _ => (0 : ℚ)))).cols ≤ 100) ∧
    ((run_multiply (CMatrix.mk 2 3 (fun _ => (0 : ℚ))) (CMatrix.mk 3 4 (fun _ => (0 : ℚ)))).rows ≤ 100 ∧
      (run_multiply (CMatrix.mk 2 3 (fun _ => (0 : ℚ))) (CMatrix.mk 3 4 (fun _ => (0 : ℚ)))).cols ≤ 100) := by
  refine ⟨?_, ?_, ?_, ?_⟩
  · cases h : read_matrix_from_file [[49, 32, 50, 10], [51, 32, 52, 10]] with
    | none =>
      have hs : (read_matrix_from_file [[49, 32, 50, 10], [51, 32, 52, 10]]).isSome = true := by
        decide
      rw [h] at hs
      exact absurd hs (by simp)
    | some m =>
      exact ⟨m, rfl, matrix_capacity_invariant.1 [[49, 32, 50, 10], [51, 32, 52, 10]] m h⟩
  · have hfp : first_pass (List.replicate 101 [49, 10]) 0 0 = some (101, 1) := by decide
    exact ⟨hfp, matrix_capacity_invariant.2.1 (List.replicate 101 [49, 10]) 101 1 hfp
      (Or.inl (by norm_num))⟩
  · refine ⟨by norm_num, ?_, ?_⟩
    · exact (matrix_capacity_invariant.2.2.1 (CMatrix.mk 2 3 (fun _ => (0 : ℚ)))
        (by norm_num) (by norm_num)).1
    · exact (matrix_capacity_invariant.2.2.1 (CMatrix.mk 2 3 (fun _ => (0 : ℚ)))
        (by norm_num) (by norm_num)).2
  · exact matrix_capacity_invariant.2.2.2 (CMatrix.mk 2 3 (fun _ => (0 : ℚ)))
      (CMatrix.mk 3 4 (fun _ => (0 : ℚ))) (by norm_num) (by norm_num) (by norm_num) (by norm_num)
